import Mathlib

/-!
# Verification of the RevPy protection-level optimizers

Shallow embedding of `src/pyrm/optimizers.py` (functions `EMSRb` and
`EMSRb_MR`) together with theorems settling the specification claims.

Modelling conventions:

* numpy float arrays are modelled as lists over `F`, a type of rational
  values extended with a `nan` element; the repository's inputs are
  plain numeric vectors, so the function arguments are `List ℚ`.
* IEEE `0/0` is NaN; division of a nonzero value by zero yields ±∞ in
  IEEE, but infinities never arise in the claims' domain (all divisions
  performed by the code have a numerator that vanishes whenever the
  denominator does, given non-negative demands), so `F` models division
  by zero as `nan`.
* `scipy.stats.norm.ppf` and `np.sqrt` compute irrational functions;
  every claim is about the structure of the computation, not about
  particular values of those functions, so they are taken as parameters
  `ppf sqrtq : ℚ → ℚ` of the embedding.  `np.sqrt` of a negative value
  is NaN; `F.sqrt` models that guard (the code only applies it to sums
  of squares, which are non-negative).
* `np.round` rounds half to even; `roundHalf` implements that on `ℚ`.
-/

/-- A numpy double restricted to the domain the program manipulates:
a finite (rational) value or NaN. -/
inductive F where
  | nan : F
  | val : ℚ → F
deriving DecidableEq, Repr

namespace F

/-- Addition; NaN propagates. -/
def add : F → F → F
  | val a, val b => val (a + b)
  | _, _ => nan

/-- Subtraction; NaN propagates. -/
def sub : F → F → F
  | val a, val b => val (a - b)
  | _, _ => nan

/-- Multiplication; NaN propagates (IEEE: `0 * NaN = NaN`). -/
def mul : F → F → F
  | val a, val b => val (a * b)
  | _, _ => nan

/-- Division; NaN propagates, and division by zero gives NaN
(IEEE `0/0`; nonzero numerators with zero denominators do not occur in
the program's domain, see the file header). -/
def div : F → F → F
  | val a, val b => if b = 0 then nan else val (a / b)
  | _, _ => nan

/-- `np.isnan`. -/
def isnan : F → Bool
  | nan => true
  | val _ => false

/-- The comparison `x < 0` (IEEE: false on NaN). -/
def lt0 : F → Bool
  | nan => false
  | val a => decide (a < 0)

/-- `np.sqrt`, with the square-root function on non-negative rationals
supplied abstractly; NaN on NaN and on negative arguments. -/
def sqrt (sqrtq : ℚ → ℚ) : F → F
  | nan => nan
  | val a => if a < 0 then nan else val (sqrtq a)

/-- Extract the rational value, defaulting to `0` on NaN (used only at
positions known to be numeric). -/
def toQ : F → ℚ
  | nan => 0
  | val a => a

end F

/-- `scipy.stats.norm.ppf` lifted to `F`: NaN propagates; on numeric
arguments the abstract quantile function `ppf` is applied. -/
def normPpf (ppf : ℚ → ℚ) : F → F
  | F.nan => F.nan
  | F.val q => F.val (ppf q)

/-- `np.round` on `ℚ`: round to the nearest integer, ties to even
(IEEE / numpy semantics). -/
def roundHalf (q : ℚ) : ℤ :=
  if q - (⌊q⌋ : ℚ) < 1/2 then ⌊q⌋
  else if 1/2 < q - (⌊q⌋ : ℚ) then ⌊q⌋ + 1
  else if 2 ∣ ⌊q⌋ then ⌊q⌋ else ⌊q⌋ + 1

/-- `np.round` on `F`: NaN maps to NaN. -/
def roundF : F → F
  | F.nan => F.nan
  | F.val q => F.val ((roundHalf q : ℤ) : ℚ)

/-- Running sums of a list, starting from `acc`. -/
def cumsumFrom (acc : ℚ) : List ℚ → List ℚ
  | [] => []
  | x :: xs => (acc + x) :: cumsumFrom (acc + x) xs

/-- `ndarray.cumsum`: list of running sums. -/
def cumsum (l : List ℚ) : List ℚ := cumsumFrom 0 l

/-- The slice sum `demands[:j].sum()`. -/
def sumTake (l : List ℚ) (j : ℕ) : ℚ := (l.take j).sum

/-- The slice dot product `np.sum(demands[:j] * fares[:j])`. -/
def dotTake (demands fares : List ℚ) (j : ℕ) : ℚ :=
  (List.zipWith (· * ·) (demands.take j) (fares.take j)).sum

/-- The pooled variance `np.sum(sigmas[:j] ** 2)`. -/
def sumSqTake (l : List ℚ) (j : ℕ) : ℚ := ((l.take j).map (fun x => x * x)).sum

/-- Body of the Gaussian-mode loop of `EMSRb` for one boundary `j`
(source lines 37–46): computes `mu + z_alpha * sigma` in float
arithmetic, where NaN can enter through the division defining
`p_j_bar` when the prefix demand sum is zero. -/
def gaussStep (ppf sqrtq : ℚ → ℚ) (fares demands sigmas : List ℚ) (j : ℕ) : F :=
  let S_j : ℚ := sumTake demands j
  let p_j_bar : F := F.div (F.val (dotTake demands fares j)) (F.val S_j)
  let p_j_plus_1 : ℚ := fares.getD j 0
  let z_alpha : F := normPpf ppf (F.sub (F.val 1) (F.div (F.val p_j_plus_1) p_j_bar))
  let sigma : F := F.sqrt sqrtq (F.val (sumSqTake sigmas j))
  let mu : F := F.val S_j
  F.add mu (F.mul z_alpha sigma)

/-- The Gaussian-mode vector `y` after the loop `for j in
range(1, len(fares))` with `y[j-1] = mu + z_alpha*sigma`: each
iteration writes a distinct slot of the freshly allocated `y` and the
body never reads `y`, so the loop is the map of `gaussStep` over
`j = 1, …, len(fares)-1`. -/
def gaussLevels (ppf sqrtq : ℚ → ℚ) (fares demands sigmas : List ℚ) : List F :=
  (List.range' 1 (fares.length - 1)).map (gaussStep ppf sqrtq fares demands sigmas)

/-- `y[y < 0] = 0` (source line 50). -/
def clampNeg (y : List F) : List F :=
  y.map (fun x => if x.lt0 then F.val 0 else x)

/-- `y[np.isnan(y)] = 0` (source line 51). -/
def clampNan (y : List F) : List F :=
  y.map (fun x => if x.isnan then F.val 0 else x)

/-- The deterministic-mode test `sigmas is None or np.all(sigmas == 0)`
(`np.all` of an empty array is true, as is `List.all` of `[]`). -/
def deterministicMode (sigmas : Option (List ℚ)) : Bool :=
  match sigmas with
  | none => true
  | some s => s.all (fun x => x == 0)

/-- `EMSRb(fares, demands, sigmas)` from `src/pyrm/optimizers.py`.

Deterministic mode rebinds `y` to `demands.cumsum()[:-1]` (the
initialization `np.zeros(len(fares) - 1)` is discarded, so the output
length follows `demands` there); Gaussian mode runs the boundary loop,
clamps negatives then NaNs to zero, and both branches end with
`np.hstack((0, np.round(y)))`.

Modelled domain: at least one fare class.  For empty `fares` the
source raises at the `np.zeros(len(fares) - 1)` allocation (negative
dimension); the model has no error value, so claims are stated with a
nonempty-fares hypothesis wherever that error path matters. -/
def EMSRb (ppf sqrtq : ℚ → ℚ) (fares demands : List ℚ)
    (sigmas : Option (List ℚ)) : List F :=
  if deterministicMode sigmas then
    F.val 0 :: ((cumsum demands).dropLast.map (fun q => roundF (F.val q)))
  else
    let s := sigmas.getD []
    let y := clampNan (clampNeg (gaussLevels ppf sqrtq fares demands s))
    F.val 0 :: (y.map roundF)

/-- `np.where(~np.isnan(adjusted_fares))[0]`: the indices of the
numeric (efficient) entries, in increasing order. -/
def efficientIndices (af : List F) : List ℕ :=
  (List.range af.length).filter (fun i => !(af.getD i F.nan).isnan)

/-- Fancy indexing `arr[indices]`. -/
def gather (l : List α) (idx : List ℕ) (d : α) : List α :=
  idx.map (fun i => l.getD i d)

/-- Modelled from the spec: the fill/re-expand helper `fill_nan` from
`pyrm/helpers.py`, which is not among the provided sources.  Per the
spec (§6), `expand(targetLength, indices, values)` produces a vector of
the target length with `values` placed at `indices` and zero
elsewhere. -/
def fill_nan (n : ℕ) (indices : List ℕ) (values : List F) : List F :=
  (List.range n).map (fun i =>
    match indices.findIdx? (fun k => k == i) with
    | some k => values.getD k (F.val 0)
    | none => F.val 0)

/-- `EMSRb_MR(fares, demands, sigmas, cap)` from
`src/pyrm/optimizers.py`, parameterized over the external collaborator
`fare_transformation` (spec §6: returns same-length adjusted fares with
NaN marking inefficient classes, and adjusted demands; its code is not
among the provided sources).  Absent sigmas default to zeros of the
fares' shape; the efficient sub-vectors are gathered, `EMSRb` is run on
them, and the result is re-expanded by `fill_nan`; with no efficient
index an all-zero vector of the fares' shape is returned. -/
def EMSRb_MR (ppf sqrtq : ℚ → ℚ)
    (ft : List ℚ → List ℚ → Option ℚ → List F × List ℚ)
    (fares demands : List ℚ) (sigmas : Option (List ℚ))
    (cap : Option ℚ) : List F :=
  let sig := sigmas.getD (List.replicate fares.length 0)
  let afad := ft fares demands cap
  let adjusted_fares := afad.1
  let adjusted_demand := afad.2
  let eff := efficientIndices adjusted_fares
  if (gather adjusted_fares eff F.nan).length ≠ 0 then
    let pl := EMSRb ppf sqrtq
      ((gather adjusted_fares eff F.nan).map F.toQ)
      (gather adjusted_demand eff 0)
      (some (gather sig eff 0))
    fill_nan fares.length eff pl
  else
    List.replicate fares.length (F.val 0)

/-! ## Basic lemmas about the embedding -/

theorem length_cumsumFrom (acc : ℚ) (l : List ℚ) :
    (cumsumFrom acc l).length = l.length := by
  induction l generalizing acc with
  | nil => rfl
  | cons x xs ih => simp [cumsumFrom, ih]

theorem length_cumsum (l : List ℚ) : (cumsum l).length = l.length :=
  length_cumsumFrom 0 l

/-- The `k`-th running sum is the sum of the first `k+1` entries. -/
theorem getD_cumsumFrom (acc : ℚ) (l : List ℚ) (k : ℕ) (hk : k < l.length) :
    (cumsumFrom acc l).getD k 0 = acc + (l.take (k + 1)).sum := by
  induction l generalizing acc k with
  | nil => simp at hk
  | cons x xs ih =>
    cases k with
    | zero => simp [cumsumFrom]
    | succ k =>
      simp only [cumsumFrom, List.getD_cons_succ]
      rw [ih (acc + x) k (by simpa using hk)]
      have ht : List.take (k + 1 + 1) (x :: xs) = x :: List.take (k + 1) xs :=
        List.take_succ_cons
      rw [ht, List.sum_cons]
      ring

theorem getD_cumsum (l : List ℚ) (k : ℕ) (hk : k < l.length) :
    (cumsum l).getD k 0 = sumTake l (k + 1) := by
  have := getD_cumsumFrom 0 l k hk
  simpa [cumsum, sumTake] using this

theorem F.div_val_of_ne (a b : ℚ) (hb : b ≠ 0) :
    F.div (F.val a) (F.val b) = F.val (a / b) := by
  simp [F.div, hb]

theorem F.div_val_zero (a : ℚ) : F.div (F.val a) (F.val 0) = F.nan := by
  simp [F.div]

/-- A sum of squares is non-negative. -/
theorem sumSqTake_nonneg (l : List ℚ) (j : ℕ) : 0 ≤ sumSqTake l j := by
  unfold sumSqTake
  induction (l.take j) with
  | nil => simp
  | cons x xs ih =>
    simp only [List.map_cons, List.sum_cons]
    nlinarith [mul_self_nonneg x]

/-- A list of non-negative rationals summing to zero is all zeros. -/
theorem all_zero_of_sum_zero {l : List ℚ} (h0 : ∀ x ∈ l, 0 ≤ x)
    (hs : l.sum = 0) : ∀ x ∈ l, x = 0 := by
  induction l with
  | nil => simp
  | cons x xs ih =>
    simp only [List.sum_cons] at hs
    have hx : 0 ≤ x := h0 x (by simp)
    have hxs : 0 ≤ xs.sum := List.sum_nonneg (fun y hy => h0 y (by simp [hy]))
    have hx0 : x = 0 := by linarith
    have hrest := ih (fun y hy => h0 y (by simp [hy])) (by linarith)
    intro y hy
    rcases List.mem_cons.mp hy with h | h
    · simpa [h] using hx0
    · exact hrest y h

/-- A pointwise product with an all-zero left factor sums to zero. -/
theorem zipWith_mul_sum_zero {l1 l2 : List ℚ} (h : ∀ x ∈ l1, x = 0) :
    (List.zipWith (· * ·) l1 l2).sum = 0 := by
  induction l1 generalizing l2 with
  | nil => simp
  | cons x xs ih =>
    cases l2 with
    | nil => simp
    | cons y ys =>
      simp only [List.zipWith_cons_cons, List.sum_cons]
      rw [h x (by simp), ih (fun z hz => h z (by simp [hz]))]
      ring

/-- Rounding preserves non-negativity. -/
theorem roundHalf_nonneg {q : ℚ} (hq : 0 ≤ q) : 0 ≤ roundHalf q := by
  have hf : (0 : ℤ) ≤ ⌊q⌋ := Int.le_floor.mpr (by simpa using hq)
  unfold roundHalf
  split
  · exact hf
  · split
    · omega
    · split
      · exact hf
      · omega

theorem length_gaussLevels (ppf sqrtq : ℚ → ℚ) (fares demands sigmas : List ℚ) :
    (gaussLevels ppf sqrtq fares demands sigmas).length = fares.length - 1 := by
  simp [gaussLevels]

theorem length_clampNeg (y : List F) : (clampNeg y).length = y.length := by
  simp [clampNeg]

theorem length_clampNan (y : List F) : (clampNan y).length = y.length := by
  simp [clampNan]

/-- Both branches of `EMSRb` prepend an exact `0`. -/
theorem EMSRb_cons (ppf sqrtq : ℚ → ℚ) (fares demands : List ℚ)
    (sigmas : Option (List ℚ)) :
    ∃ t, EMSRb ppf sqrtq fares demands sigmas = F.val 0 :: t := by
  unfold EMSRb
  split
  · exact ⟨_, rfl⟩
  · exact ⟨_, rfl⟩

/-- The efficient indices are strictly increasing. -/
theorem efficientIndices_pairwise (af : List F) :
    (efficientIndices af).Pairwise (· < ·) :=
  List.Pairwise.filter _ (List.pairwise_lt_range _)

/-- Unfolding `fill_nan` at an in-range position. -/
theorem getD_fill_nan (n : ℕ) (idx : List ℕ) (values : List F) (i : ℕ)
    (hi : i < n) :
    (fill_nan n idx values).getD i F.nan =
      match idx.findIdx? (fun k => k == i) with
      | some k => values.getD k (F.val 0)
      | none => F.val 0 := by
  unfold fill_nan
  rw [List.getD_eq_getElem _ _ (by simpa using hi)]
  rw [List.getElem_map]
  simp

/-- Output length of `EMSRb` on shape-consistent, non-empty input. -/
theorem length_EMSRb (ppf sqrtq : ℚ → ℚ) (fares demands : List ℚ)
    (sigmas : Option (List ℚ)) (hlen : demands.length = fares.length)
    (hN : 1 ≤ fares.length) :
    (EMSRb ppf sqrtq fares demands sigmas).length = fares.length := by
  unfold EMSRb
  split
  · simp only [List.length_cons, List.length_map, List.length_dropLast,
      length_cumsum]
    omega
  · simp only [List.length_cons, List.length_map, length_clampNan,
      length_clampNeg, length_gaussLevels]
    omega

/-- In a strictly increasing list whose head is `i0`, no value below
`i0` occurs, so `findIdx?` fails on it. -/
theorem findIdx?_beq_none_of_lt_head {l : List ℕ}
    (hp : l.Pairwise (· < ·)) {i0 : ℕ} (hh : l.head? = some i0) {i : ℕ}
    (hi : i < i0) : l.findIdx? (fun k => k == i) = none := by
  apply List.findIdx?_eq_none_iff.mpr
  intro x hx
  obtain ⟨ys, rfl⟩ := List.head?_eq_some_iff.mp hh
  rcases List.mem_cons.mp hx with h | h
  · subst h
    simp only [beq_eq_false_iff_ne, ne_eq]
    omega
  · have : i0 < x := (List.pairwise_cons.mp hp).1 x h
    simp only [beq_eq_false_iff_ne, ne_eq]
    omega

/-- In a strictly increasing list with head `i0`, `findIdx?` locates
`i0` at position `0`. -/
theorem findIdx?_beq_head {l : List ℕ} {i0 : ℕ} (hh : l.head? = some i0) :
    l.findIdx? (fun k => k == i0) = some 0 := by
  obtain ⟨ys, rfl⟩ := List.head?_eq_some_iff.mp hh
  simp [List.findIdx?_cons]

/-- In a strictly increasing list of naturals, a hit for the value `0`
can only be at position `0`. -/
theorem findIdx?_beq_zero_pos {l : List ℕ} (hp : l.Pairwise (· < ·))
    {k : ℕ} (hk : l.findIdx? (fun j => j == 0) = some k) : k = 0 := by
  obtain ⟨hlt, hpk, hprev⟩ := List.findIdx?_eq_some_iff_getElem.mp hk
  by_contra hne
  have h0k : 0 < k := Nat.pos_of_ne_zero hne
  have hlk : l[0] < l[k] := (List.pairwise_iff_getElem.mp hp) 0 k
    (Nat.lt_trans h0k hlt) hlt h0k
  have : l[k] = 0 := by simpa using hpk
  omega

/-! ## Claims -/

/-- C2: for equal-length `fares` and `demands` (N ≥ 1) with `sigmas`
absent or entirely zero, `EMSRb` returns a length-N vector whose
element 0 is 0 and whose element `k` (for `1 ≤ k ≤ N-1`) is the rounded
cumulative demand of classes `0..k-1`, i.e. `EMSRb(fares, demands)[1:]`
equals `round(cumsum(demands)[:-1])`. -/
theorem EMSRb_deterministic_is_rounded_cumsum (ppf sqrtq : ℚ → ℚ)
    (fares demands : List ℚ) (sigmas : Option (List ℚ))
    (hdet : deterministicMode sigmas = true)
    (hlen : demands.length = fares.length) (hN : 1 ≤ fares.length) :
    (EMSRb ppf sqrtq fares demands sigmas).length = fares.length ∧
    (EMSRb ppf sqrtq fares demands sigmas).getD 0 F.nan = F.val 0 ∧
    ∀ k, 1 ≤ k → k < fares.length →
      (EMSRb ppf sqrtq fares demands sigmas).getD k F.nan
        = F.val ((roundHalf (sumTake demands k) : ℤ) : ℚ) := by
  refine ⟨length_EMSRb ppf sqrtq fares demands sigmas hlen hN, ?_, ?_⟩
  · obtain ⟨t, ht⟩ := EMSRb_cons ppf sqrtq fares demands sigmas
    rw [ht]; rfl
  · intro k hk1 hkN
    obtain ⟨k', rfl⟩ : ∃ k', k = k' + 1 := ⟨k - 1, by omega⟩
    unfold EMSRb
    rw [if_pos (by simp [hdet])]
    rw [List.getD_cons_succ]
    have hk' : k' < ((cumsum demands).dropLast.map
        (fun q => roundF (F.val q))).length := by
      simp only [List.length_map, List.length_dropLast, length_cumsum]
      omega
    rw [List.getD_eq_getElem _ _ hk', List.getElem_map,
      List.getElem_dropLast]
    have hcd : k' < (cumsum demands).length := by
      rw [length_cumsum]; omega
    rw [← List.getD_eq_getElem (cumsum demands) 0 hcd,
      getD_cumsum demands k' (by rw [← length_cumsum]; exact hcd)]
    rfl

/-- Witness for C2 at `fares = [100, 75, 50]`, `demands = [10, 20, 30]`,
no sigmas. -/
theorem EMSRb_deterministic_is_rounded_cumsum_witness :
    deterministicMode (none : Option (List ℚ)) = true ∧
    ([10, 20, 30] : List ℚ).length = ([100, 75, 50] : List ℚ).length ∧
    (EMSRb id id [100, 75, 50] [10, 20, 30] none).getD 2 F.nan
      = F.val ((roundHalf (sumTake [10, 20, 30] 2) : ℤ) : ℚ) :=
  ⟨rfl, rfl,
    (EMSRb_deterministic_is_rounded_cumsum id id [100, 75, 50] [10, 20, 30]
      none rfl rfl (by decide)).2.2 2 (by decide) (by decide)⟩

/-- C4: for every input with N ≥ 1 fare classes, element 0 of the
protection-level vector is exactly 0, both for `EMSRb` and for
`EMSRb_MR` (with any fare transformation). -/
theorem protection_level_zero_at_top_class (ppf sqrtq : ℚ → ℚ)
    (ft : List ℚ → List ℚ → Option ℚ → List F × List ℚ)
    (fares demands : List ℚ) (sigmas : Option (List ℚ)) (cap : Option ℚ)
    (hN : 1 ≤ fares.length) :
    (EMSRb ppf sqrtq fares demands sigmas).getD 0 F.nan = F.val 0 ∧
    (EMSRb_MR ppf sqrtq ft fares demands sigmas cap).getD 0 F.nan
      = F.val 0 := by
  constructor
  · obtain ⟨t, ht⟩ := EMSRb_cons ppf sqrtq fares demands sigmas
    rw [ht]; rfl
  · unfold EMSRb_MR
    dsimp only
    split
    · rw [getD_fill_nan _ _ _ 0 (by omega)]
      have hp := efficientIndices_pairwise (ft fares demands cap).1
      cases hfi : (efficientIndices (ft fares demands cap).1).findIdx?
          (fun k => k == 0) with
      | none => rfl
      | some k =>
        have hk0 : k = 0 := findIdx?_beq_zero_pos hp hfi
        subst hk0
        obtain ⟨t, ht⟩ := EMSRb_cons ppf sqrtq
          ((gather (ft fares demands cap).1
            (efficientIndices (ft fares demands cap).1) F.nan).map F.toQ)
          (gather (ft fares demands cap).2
            (efficientIndices (ft fares demands cap).1) 0)
          (some (gather (sigmas.getD (List.replicate fares.length 0))
            (efficientIndices (ft fares demands cap).1) 0))
        rw [ht]; rfl
    · rw [List.getD_eq_getElem _ _ (by simpa using hN)]
      simp

/-- Witness for C4 at a 2-class input with an identity-style
transformation marking both classes efficient. -/
theorem protection_level_zero_at_top_class_witness :
    1 ≤ ([100, 50] : List ℚ).length ∧
    (EMSRb id id [100, 50] [10, 20] none).getD 0 F.nan = F.val 0 ∧
    (EMSRb_MR id id (fun f d _ => (f.map F.val, d)) [100, 50] [10, 20]
      none none).getD 0 F.nan = F.val 0 :=
  ⟨by decide,
    protection_level_zero_at_top_class id id (fun f d _ => (f.map F.val, d))
      [100, 50] [10, 20] none none (by decide)⟩

/-- C1: in Gaussian mode (`sigmas` present and not all zero), for every
boundary `j` in `1..N-1` (with the weighted-average fare well defined,
i.e. nonzero prefix demand and nonzero weighted fare sum), the
pre-clamping protection level computed by `EMSRb` — entry `j-1` of the
loop vector `y`, of which the returned vector is the clamped rounded
extension — equals `S_j + z * sigma_j`, where `S_j` is the sum of
`demands[0:j]`, `z = ppf(1 - fares[j] / p_bar_j)` with
`p_bar_j = sum(demands[0:j]*fares[0:j]) / sum(demands[0:j])`, and
`sigma_j` is the square root of the summed squared `sigmas[0:j]`. -/
theorem EMSRb_gaussian_closed_form (ppf sqrtq : ℚ → ℚ)
    (fares demands s : List ℚ) (j : ℕ)
    (hlen : demands.length = fares.length) (hN : 2 ≤ fares.length)
    (hmode : deterministicMode (some s) = false)
    (hj1 : 1 ≤ j) (hjN : j < fares.length)
    (hS : sumTake demands j ≠ 0) (hdot : dotTake demands fares j ≠ 0) :
    EMSRb ppf sqrtq fares demands (some s)
      = F.val 0 :: ((clampNan (clampNeg
          (gaussLevels ppf sqrtq fares demands s))).map roundF) ∧
    (gaussLevels ppf sqrtq fares demands s).getD (j - 1) F.nan
      = F.val (sumTake demands j
          + ppf (1 - fares.getD j 0
              / (dotTake demands fares j / sumTake demands j))
            * sqrtq (sumSqTake s j)) := by
  constructor
  · unfold EMSRb
    rw [if_neg (by simp [hmode])]
    rfl
  · have hj' : j - 1 < (gaussLevels ppf sqrtq fares demands s).length := by
      rw [length_gaussLevels]; omega
    rw [List.getD_eq_getElem _ _ hj']
    unfold gaussLevels
    rw [List.getElem_map, List.getElem_range']
    have hidx : 1 + 1 * (j - 1) = j := by omega
    rw [hidx]
    unfold gaussStep
    dsimp only
    rw [F.div_val_of_ne _ _ hS]
    have hpbar : dotTake demands fares j / sumTake demands j ≠ 0 :=
      div_ne_zero hdot hS
    rw [F.div_val_of_ne _ _ hpbar]
    have hsq : ¬ (sumSqTake s j < 0) := not_lt.mpr (sumSqTake_nonneg s j)
    simp [F.sub, normPpf, F.sqrt, hsq, F.mul, F.add]

/-- Witness for C1 at `fares = [3, 1]`, `demands = [1, 1]`,
`sigmas = [1, 0]`, boundary `j = 1`. -/
theorem EMSRb_gaussian_closed_form_witness :
    deterministicMode (some ([1, 0] : List ℚ)) = false ∧
    sumTake [1, 1] 1 ≠ 0 ∧ dotTake [1, 1] [3, 1] 1 ≠ 0 ∧
    ((EMSRb id id [3, 1] [1, 1] (some [1, 0])
        = F.val 0 :: ((clampNan (clampNeg
            (gaussLevels id id [3, 1] [1, 1] [1, 0]))).map roundF)) ∧
      (gaussLevels id id [3, 1] [1, 1] [1, 0]).getD 0 F.nan
        = F.val (sumTake [1, 1] 1
            + id (1 - ([3, 1] : List ℚ).getD 1 0
                / (dotTake [1, 1] [3, 1] 1 / sumTake [1, 1] 1))
              * id (sumSqTake [1, 0] 1))) :=
  ⟨by norm_num [deterministicMode], by norm_num [sumTake],
    by norm_num [dotTake],
    EMSRb_gaussian_closed_form id id [3, 1] [1, 1] [1, 0] 1 rfl
      (by decide) (by norm_num [deterministicMode]) (by decide) (by decide)
      (by norm_num [sumTake]) (by norm_num [dotTake])⟩

/-- Entry `j-1` of the Gaussian loop vector is the loop body at `j`. -/
theorem gaussLevels_getD (ppf sqrtq : ℚ → ℚ) (fares demands s : List ℚ)
    (j : ℕ) (hj1 : 1 ≤ j) (hjN : j < fares.length) :
    (gaussLevels ppf sqrtq fares demands s).getD (j - 1) F.nan
      = gaussStep ppf sqrtq fares demands s j := by
  have hj' : j - 1 < (gaussLevels ppf sqrtq fares demands s).length := by
    rw [length_gaussLevels]; omega
  rw [List.getD_eq_getElem _ _ hj']
  unfold gaussLevels
  rw [List.getElem_map, List.getElem_range']
  have hidx : 1 + 1 * (j - 1) = j := by omega
  rw [hidx]

/-- A zero prefix demand sum makes the loop body NaN: the weighted
average divides by zero (`0/0` given non-negative demands) and NaN
propagates through the remaining operations. -/
theorem gaussStep_nan_of_prefix_zero (ppf sqrtq : ℚ → ℚ)
    (fares demands sigmas : List ℚ) (j : ℕ)
    (hS : sumTake demands j = 0) :
    gaussStep ppf sqrtq fares demands sigmas j = F.nan := by
  unfold gaussStep
  dsimp only
  rw [hS, F.div_val_zero]
  simp [F.div, F.sub, normPpf, F.mul, F.add]

theorem roundF_val_zero : roundF (F.val 0) = F.val 0 := by
  norm_num [roundF, roundHalf]

/-- Gaussian-mode entries of the returned vector, positions `1..N-1`,
are the round of the doubly clamped loop entries. -/
theorem EMSRb_gauss_getD_succ (ppf sqrtq : ℚ → ℚ)
    (fares demands s : List ℚ) (k : ℕ)
    (hmode : deterministicMode (some s) = false)
    (hk : k < fares.length - 1) :
    (EMSRb ppf sqrtq fares demands (some s)).getD (k + 1) F.nan
      = roundF ((clampNan (clampNeg
          (gaussLevels ppf sqrtq fares demands s))).getD k F.nan) := by
  unfold EMSRb
  rw [if_neg (by simp [hmode])]
  dsimp only
  rw [List.getD_cons_succ]
  have hlen : k < (clampNan (clampNeg
      (gaussLevels ppf sqrtq fares demands s))).length := by
    rw [length_clampNan, length_clampNeg, length_gaussLevels]; omega
  rw [List.getD_eq_getElem _ _ (by simpa using hlen), List.getElem_map,
    List.getD_eq_getElem _ _ hlen]
  rfl

/-- The two clamping passes, read at one position. -/
theorem clamp_getD (g : List F) (k : ℕ) (hk : k < g.length) :
    (clampNan (clampNeg g)).getD k F.nan =
      (fun x => if x.isnan then F.val 0 else x)
        ((fun x => if x.lt0 then F.val 0 else x) (g.getD k F.nan)) := by
  have h1 : k < (clampNeg g).length := by rw [length_clampNeg]; exact hk
  have h2 : k < (clampNan (clampNeg g)).length := by
    rw [length_clampNan]; exact h1
  rw [List.getD_eq_getElem _ _ h2]
  unfold clampNan
  rw [List.getElem_map]
  unfold clampNeg
  rw [List.getElem_map]
  rw [List.getD_eq_getElem _ _ hk]

/-- Elements surviving both clamps are numeric. -/
theorem clamp_not_nan {z : F} {g : List F}
    (hz : z ∈ clampNan g) : z.isnan = false := by
  unfold clampNan at hz
  obtain ⟨w, _, rfl⟩ := List.mem_map.mp hz
  cases w with
  | nan => simp [F.isnan]
  | val q => simp [F.isnan]

/-- C5: in Gaussian mode (N ≥ 1 fare classes), every boundary level
that is negative or NaN before post-processing is returned as 0, and no
NaN is ever propagated to the result — for every input, with no
restriction on the demands; in particular any boundary `j` whose prefix
`demands[0:j]` sums to 0 (with non-negative demands, the
weighted-average fare is then `0/0`) yields 0 at index `j` of the
result. -/
theorem EMSRb_gaussian_clamps_to_zero (ppf sqrtq : ℚ → ℚ)
    (fares demands s : List ℚ)
    (hmode : deterministicMode (some s) = false)
    (hN : 1 ≤ fares.length) :
    (∀ k, k < fares.length - 1 →
      ((((gaussLevels ppf sqrtq fares demands s).getD k F.nan).lt0 = true) ∨
       (((gaussLevels ppf sqrtq fares demands s).getD k F.nan).isnan = true)) →
      (EMSRb ppf sqrtq fares demands (some s)).getD (k + 1) F.nan
        = F.val 0) ∧
    (∀ x ∈ EMSRb ppf sqrtq fares demands (some s), x.isnan = false) ∧
    (∀ j, 1 ≤ j → j < fares.length → (∀ x ∈ demands, 0 ≤ x) →
      sumTake demands j = 0 →
      (EMSRb ppf sqrtq fares demands (some s)).getD j F.nan
        = F.val 0) := by
  have hglen : (gaussLevels ppf sqrtq fares demands s).length
      = fares.length - 1 := length_gaussLevels ppf sqrtq fares demands s
  have main : ∀ k, k < fares.length - 1 →
      ((((gaussLevels ppf sqrtq fares demands s).getD k F.nan).lt0 = true) ∨
       (((gaussLevels ppf sqrtq fares demands s).getD k F.nan).isnan = true)) →
      (EMSRb ppf sqrtq fares demands (some s)).getD (k + 1) F.nan
        = F.val 0 := by
    intro k hk hneg
    rw [EMSRb_gauss_getD_succ ppf sqrtq fares demands s k hmode hk]
    rw [clamp_getD _ _ (by omega)]
    dsimp only
    rcases hneg with h | h
    · rw [if_pos h, if_neg (by simp [F.isnan])]
      exact roundF_val_zero
    · have hx : (gaussLevels ppf sqrtq fares demands s).getD k F.nan
          = F.nan := by
        cases hgx : (gaussLevels ppf sqrtq fares demands s).getD k F.nan with
        | nan => rfl
        | val q => rw [hgx] at h; simp [F.isnan] at h
      rw [hx]
      show roundF (F.val 0) = F.val 0
      exact roundF_val_zero
  refine ⟨main, ?_, ?_⟩
  · intro x hx
    unfold EMSRb at hx
    rw [if_neg (by simp [hmode])] at hx
    dsimp only at hx
    rcases List.mem_cons.mp hx with h | h
    · subst h; rfl
    · obtain ⟨z, hz, rfl⟩ := List.mem_map.mp h
      have hzn := clamp_not_nan hz
      cases z with
      | nan => simp [F.isnan] at hzn
      | val q => simp [roundF, F.isnan]
  · intro j hj1 hjN hd hS
    have hj' : j - 1 < fares.length - 1 := by omega
    have hnan : (gaussLevels ppf sqrtq fares demands s).getD (j - 1) F.nan
        = F.nan := by
      rw [gaussLevels_getD ppf sqrtq fares demands s j hj1 hjN]
      exact gaussStep_nan_of_prefix_zero ppf sqrtq fares demands s j hS
    have := main (j - 1) hj' (Or.inr (by rw [hnan]; rfl))
    have hjj : j - 1 + 1 = j := by omega
    rwa [hjj] at this

/-- Witness for C5 at `fares = [3, 1]`, `demands = [0, 7]`,
`sigmas = [1, 0]`: no NaN in the output, and boundary `j = 1` (whose
prefix demand sum is zero) yields level 0. -/
theorem EMSRb_gaussian_clamps_to_zero_witness :
    deterministicMode (some ([1, 0] : List ℚ)) = false ∧
    1 ≤ ([3, 1] : List ℚ).length ∧
    ((∀ x ∈ EMSRb id id [3, 1] [0, 7] (some [1, 0]), x.isnan = false) ∧
      (EMSRb id id [3, 1] [0, 7] (some [1, 0])).getD 1 F.nan = F.val 0) :=
  ⟨by norm_num [deterministicMode], by decide,
    ⟨(EMSRb_gaussian_clamps_to_zero id id [3, 1] [0, 7] [1, 0]
        (by norm_num [deterministicMode]) (by decide)).2.1,
      (EMSRb_gaussian_clamps_to_zero id id [3, 1] [0, 7] [1, 0]
        (by norm_num [deterministicMode]) (by decide)).2.2 1 (by decide)
        (by decide) (by norm_num) (by norm_num [sumTake])⟩⟩

/-- Running sums of non-negative values are non-negative. -/
theorem cumsumFrom_mem_nonneg {acc : ℚ} {l : List ℚ} (hacc : 0 ≤ acc)
    (hl : ∀ y ∈ l, 0 ≤ y) : ∀ x ∈ cumsumFrom acc l, 0 ≤ x := by
  induction l generalizing acc with
  | nil => simp [cumsumFrom]
  | cons z zs ih =>
    intro x hx
    have hz : 0 ≤ z := hl z (by simp)
    simp only [cumsumFrom, List.mem_cons] at hx
    rcases hx with rfl | hx
    · linarith
    · exact ih (by linarith) (fun y hy => hl y (by simp [hy])) x hx

/-- Every element surviving both clamps is a non-negative value. -/
theorem clamp_mem_nonneg {g : List F} :
    ∀ z ∈ clampNan (clampNeg g), ∃ q, z = F.val q ∧ 0 ≤ q := by
  intro z hz
  unfold clampNan clampNeg at hz
  obtain ⟨w, hw, rfl⟩ := List.mem_map.mp hz
  obtain ⟨u, _, rfl⟩ := List.mem_map.mp hw
  cases u with
  | nan => exact ⟨0, rfl, le_rfl⟩
  | val q =>
    by_cases hlt : q < 0
    · refine ⟨0, ?_, le_rfl⟩
      simp [F.lt0, F.isnan, hlt]
    · refine ⟨q, ?_, not_lt.mp hlt⟩
      simp [F.lt0, F.isnan, hlt]

/-- C8: with non-negative demands, every element of the vector returned
by `EMSRb` is a non-negative numeric value (no NaN), in deterministic
and in Gaussian mode alike. -/
theorem EMSRb_output_nonneg (ppf sqrtq : ℚ → ℚ)
    (fares demands : List ℚ) (sigmas : Option (List ℚ))
    (hd : ∀ x ∈ demands, 0 ≤ x) :
    ∀ x ∈ EMSRb ppf sqrtq fares demands sigmas,
      ∃ q, x = F.val q ∧ 0 ≤ q := by
  intro x hx
  unfold EMSRb at hx
  split at hx
  · rcases List.mem_cons.mp hx with rfl | hx
    · exact ⟨0, rfl, le_rfl⟩
    · obtain ⟨q, hq, rfl⟩ := List.mem_map.mp hx
      have hq' : q ∈ cumsum demands := (List.dropLast_sublist _).subset hq
      have h0 : 0 ≤ q := cumsumFrom_mem_nonneg le_rfl hd q hq'
      exact ⟨((roundHalf q : ℤ) : ℚ), rfl, by exact_mod_cast roundHalf_nonneg h0⟩
  · dsimp only at hx
    rcases List.mem_cons.mp hx with rfl | hx
    · exact ⟨0, rfl, le_rfl⟩
    · obtain ⟨z, hz, rfl⟩ := List.mem_map.mp hx
      obtain ⟨q, rfl, hq0⟩ := clamp_mem_nonneg z hz
      exact ⟨((roundHalf q : ℤ) : ℚ), rfl,
        by exact_mod_cast roundHalf_nonneg hq0⟩

/-- Witness for C8 at `fares = [100, 50]`, `demands = [10, 20]`,
`sigmas = [2, 3]` (Gaussian mode). -/
theorem EMSRb_output_nonneg_witness :
    (∀ x ∈ ([10, 20] : List ℚ), 0 ≤ x) ∧
    (∀ x ∈ EMSRb id id [100, 50] [10, 20] (some [2, 3]),
      ∃ q, x = F.val q ∧ 0 ≤ q) :=
  ⟨by norm_num,
    EMSRb_output_nonneg id id [100, 50] [10, 20] (some [2, 3])
      (by norm_num)⟩

/-- C7 counterexample: with `fares` of length 3, `demands` of length 2
and no sigmas, `EMSRb` does not fail: numpy slicing tolerates the
mismatch and the deterministic branch silently returns the vector
`[0, 3]` computed from `demands` alone, whose length (2) differs from
the number of fare classes (3). -/
theorem EMSRb_shape_mismatch_counterexample :
    EMSRb id id [10, 5, 2] [3, 4] none = [F.val 0, F.val 3] ∧
    (EMSRb id id [10, 5, 2] [3, 4] none).length
      ≠ ([10, 5, 2] : List ℚ).length := by
  constructor
  · show F.val 0 :: ((cumsum [3, 4]).dropLast.map (fun q => roundF (F.val q)))
      = [F.val 0, F.val 3]
    have hc : cumsum ([3, 4] : List ℚ) = [3, 7] := by
      norm_num [cumsum, cumsumFrom]
    rw [hc]
    have hr : roundHalf 3 = 3 := by
      have hf : ⌊(3 : ℚ)⌋ = 3 := by norm_num
      norm_num [roundHalf, hf]
    simp [roundF, hr]
  · intro h
    rw [show EMSRb id id [10, 5, 2] [3, 4] none
        = F.val 0 :: ((cumsum [3, 4]).dropLast.map
          (fun q => roundF (F.val q))) from rfl] at h
    simp [length_cumsum] at h

/-- C7 (amended): `EMSRb` performs no length validation.  With `sigmas`
absent (deterministic mode), at least one fare class (for empty `fares`
the source does fail, at the `np.zeros(len(fares) - 1)` allocation, not
at any shape check) and non-empty `demands`, it silently returns the
rounded cumulative-demand vector derived from `demands` alone, whose
length equals `demands.length` — which differs from the number of fare
classes whenever the input lengths differ. -/
theorem EMSRb_shape_mismatch_silent (ppf sqrtq : ℚ → ℚ)
    (fares demands : List ℚ) (hfN : fares ≠ []) (hne : demands ≠ []) :
    EMSRb ppf sqrtq fares demands none
      = F.val 0 :: ((cumsum demands).dropLast.map
          (fun q => roundF (F.val q))) ∧
    (EMSRb ppf sqrtq fares demands none).length = demands.length := by
  constructor
  · rfl
  · show (F.val 0 :: ((cumsum demands).dropLast.map
        (fun q => roundF (F.val q)))).length = demands.length
    have hpos : 0 < demands.length := List.length_pos.mpr hne
    simp only [List.length_cons, List.length_map, List.length_dropLast,
      length_cumsum]
    omega

/-- Witness for the amended C7 at `fares = [10, 5, 2]`,
`demands = [3, 4]`. -/
theorem EMSRb_shape_mismatch_silent_witness :
    (([10, 5, 2] : List ℚ) ≠ []) ∧ (([3, 4] : List ℚ) ≠ []) ∧
    (EMSRb id id [10, 5, 2] [3, 4] none).length = 2 :=
  ⟨by simp, by simp,
    (EMSRb_shape_mismatch_silent id id [10, 5, 2] [3, 4] (by simp)
      (by simp)).2⟩

/-- When no adjusted fare is NaN, every index is efficient. -/
theorem efficientIndices_all {af : List F}
    (h : ∀ x ∈ af, x.isnan = false) :
    efficientIndices af = List.range af.length := by
  unfold efficientIndices
  apply List.filter_eq_self.mpr
  intro i hi
  have hilen : i < af.length := List.mem_range.mp hi
  have hx : (af.getD i F.nan).isnan = false := by
    rw [List.getD_eq_getElem _ _ hilen]
    exact h _ (List.getElem_mem hilen)
  rw [hx]
  rfl

/-- Gathering along the full index range is the identity. -/
theorem gather_range (l : List α) (d : α) :
    gather l (List.range l.length) d = l := by
  apply List.ext_getElem
  · simp [gather]
  · intro i h1 h2
    unfold gather
    rw [List.getElem_map, List.getElem_range]
    exact List.getD_eq_getElem l d h2

/-- Gathering along a full range of matching length is the identity. -/
theorem gather_range_of_length (l : List α) (d : α) (n : ℕ)
    (h : n = l.length) : gather l (List.range n) d = l := by
  subst h
  exact gather_range l d

/-- `findIdx?` locates `i` in `range' s n` at position `i - s`. -/
theorem findIdx?_range'_beq (n : ℕ) : ∀ s i : ℕ, s ≤ i → i < s + n →
    (List.range' s n).findIdx? (fun k => k == i) = some (i - s) := by
  induction n with
  | zero => intro s i h1 h2; omega
  | succ n ih =>
    intro s i h1 h2
    rw [List.range'_succ, List.findIdx?_cons]
    by_cases hsi : s = i
    · subst hsi
      simp
    · rw [if_neg (by simp [hsi])]
      rw [List.findIdx?_succ]
      rw [ih (s + 1) i (by omega) (by omega)]
      simp only [Option.map_some']
      congr 1
      omega

/-- `findIdx?` locates `i` in `range n` at position `i`. -/
theorem findIdx?_range_beq (n i : ℕ) (hi : i < n) :
    (List.range n).findIdx? (fun k => k == i) = some i := by
  rw [List.range_eq_range']
  have := findIdx?_range'_beq n 0 i (by omega) (by omega)
  simpa using this

/-- Re-expanding along the full index range is the identity. -/
theorem fill_nan_range (pl : List F) (n : ℕ) (hn : pl.length = n) :
    fill_nan n (List.range n) pl = pl := by
  apply List.ext_getElem
  · simp [fill_nan, hn]
  · intro i h1 h2
    unfold fill_nan
    rw [List.getElem_map, List.getElem_range]
    have hi : i < n := by simpa [fill_nan] using h1
    rw [findIdx?_range_beq n i hi]
    exact List.getD_eq_getElem pl (F.val 0) h2

/-- C3: when the fare transformation marks no class inefficient (no NaN
adjusted fares), `EMSRb_MR` degenerates to `EMSRb` applied to the full
adjusted fare vector, adjusted demand vector, and (defaulted) sigma
vector — no extra zero-filled entries are introduced. -/
theorem EMSRb_MR_all_efficient (ppf sqrtq : ℚ → ℚ)
    (ft : List ℚ → List ℚ → Option ℚ → List F × List ℚ)
    (fares demands : List ℚ) (sigmas : Option (List ℚ)) (cap : Option ℚ)
    (hN : 1 ≤ fares.length)
    (haf : (ft fares demands cap).1.length = fares.length)
    (had : (ft fares demands cap).2.length = fares.length)
    (hsig : (sigmas.getD (List.replicate fares.length 0)).length
      = fares.length)
    (hnonan : ∀ x ∈ (ft fares demands cap).1, x.isnan = false) :
    EMSRb_MR ppf sqrtq ft fares demands sigmas cap
      = EMSRb ppf sqrtq ((ft fares demands cap).1.map F.toQ)
          (ft fares demands cap).2
          (some (sigmas.getD (List.replicate fares.length 0))) := by
  unfold EMSRb_MR
  dsimp only
  rw [efficientIndices_all hnonan]
  rw [gather_range (ft fares demands cap).1 F.nan]
  rw [haf]
  rw [gather_range_of_length (ft fares demands cap).2 0 fares.length
    had.symm]
  rw [gather_range_of_length (sigmas.getD (List.replicate fares.length 0)) 0
    fares.length hsig.symm]
  rw [if_pos (by omega)]
  have hlen1 : (EMSRb ppf sqrtq (List.map F.toQ (ft fares demands cap).1)
      (ft fares demands cap).2
      (some (sigmas.getD (List.replicate fares.length 0)))).length
      = (List.map F.toQ (ft fares demands cap).1).length := by
    apply length_EMSRb
    · rw [had, List.length_map, haf]
    · rw [List.length_map, haf]
      exact hN
  apply fill_nan_range
  rw [hlen1, List.length_map, haf]

/-- Witness for C3 with a transformation marking both classes
efficient. -/
theorem EMSRb_MR_all_efficient_witness :
    (∀ x ∈ (((fun (f d : List ℚ) (_ : Option ℚ) => (f.map F.val, d))
        [100, 50] [10, 20] none).1), x.isnan = false) ∧
    EMSRb_MR id id (fun f d _ => (f.map F.val, d)) [100, 50] [10, 20]
        none none
      = EMSRb id id ((([100, 50] : List ℚ).map F.val).map F.toQ) [10, 20]
          (some (List.replicate 2 0)) :=
  ⟨by decide,
    EMSRb_MR_all_efficient id id (fun f d _ => (f.map F.val, d))
      [100, 50] [10, 20] none none (by decide) rfl rfl rfl (by decide)⟩

/-- C6: when the fare transformation marks every class inefficient
(all adjusted fares NaN), the efficient-index set is empty and
`EMSRb_MR` returns the all-zero vector of length N, with no error. -/
theorem EMSRb_MR_all_inefficient (ppf sqrtq : ℚ → ℚ)
    (ft : List ℚ → List ℚ → Option ℚ → List F × List ℚ)
    (fares demands : List ℚ) (sigmas : Option (List ℚ)) (cap : Option ℚ)
    (hall : ∀ x ∈ (ft fares demands cap).1, x.isnan = true) :
    EMSRb_MR ppf sqrtq ft fares demands sigmas cap
      = List.replicate fares.length (F.val 0) := by
  unfold EMSRb_MR
  dsimp only
  have heff : efficientIndices (ft fares demands cap).1 = [] := by
    unfold efficientIndices
    apply List.filter_eq_nil_iff.mpr
    intro i hi
    have hilen : i < (ft fares demands cap).1.length := List.mem_range.mp hi
    have hx : ((ft fares demands cap).1.getD i F.nan).isnan = true := by
      rw [List.getD_eq_getElem _ _ hilen]
      exact hall _ (List.getElem_mem hilen)
    simp only [hx]
    decide
  rw [heff]
  rw [if_neg (by simp [gather])]

/-- Witness for C6 with a transformation marking both classes
inefficient. -/
theorem EMSRb_MR_all_inefficient_witness :
    (∀ x ∈ (((fun (_ _ : List ℚ) (_ : Option ℚ) =>
        (([F.nan, F.nan] : List F), ([0, 0] : List ℚ)))
        [100, 50] [10, 20] none).1), x.isnan = true) ∧
    EMSRb_MR id id (fun _ _ _ => ([F.nan, F.nan], [0, 0])) [100, 50]
        [10, 20] none none
      = List.replicate 2 (F.val 0) :=
  ⟨by decide,
    EMSRb_MR_all_inefficient id id (fun _ _ _ => ([F.nan, F.nan], [0, 0]))
      [100, 50] [10, 20] none none (by decide)⟩

/-- C10: when the efficient-index set is non-empty, the output of
`EMSRb_MR` at the smallest efficient index `i0` is exactly 0 (the
forced top-class zero of the inner `EMSRb` call lands there), and all
indices below `i0` (inefficient by minimality) are zero-filled. -/
theorem EMSRb_MR_zero_at_first_efficient (ppf sqrtq : ℚ → ℚ)
    (ft : List ℚ → List ℚ → Option ℚ → List F × List ℚ)
    (fares demands : List ℚ) (sigmas : Option (List ℚ)) (cap : Option ℚ)
    (i0 : ℕ)
    (haf : (ft fares demands cap).1.length = fares.length)
    (hhead : (efficientIndices (ft fares demands cap).1).head?
      = some i0) :
    (EMSRb_MR ppf sqrtq ft fares demands sigmas cap).getD i0 F.nan
      = F.val 0 ∧
    ∀ i, i < i0 →
      (EMSRb_MR ppf sqrtq ft fares demands sigmas cap).getD i F.nan
        = F.val 0 := by
  obtain ⟨t, heq⟩ := List.head?_eq_some_iff.mp hhead
  have hi0 : i0 < (ft fares demands cap).1.length := by
    have hmem : i0 ∈ efficientIndices (ft fares demands cap).1 := by
      rw [heq]; exact List.mem_cons_self i0 t
    unfold efficientIndices at hmem
    exact List.mem_range.mp (List.mem_filter.mp hmem).1
  have hi0f : i0 < fares.length := by rw [haf] at hi0; exact hi0
  unfold EMSRb_MR
  dsimp only
  rw [if_pos (by simp [gather, heq])]
  constructor
  · rw [getD_fill_nan _ _ _ i0 hi0f]
    rw [findIdx?_beq_head hhead]
    obtain ⟨t2, ht2⟩ := EMSRb_cons ppf sqrtq
      ((gather (ft fares demands cap).1
        (efficientIndices (ft fares demands cap).1) F.nan).map F.toQ)
      (gather (ft fares demands cap).2
        (efficientIndices (ft fares demands cap).1) 0)
      (some (gather (sigmas.getD (List.replicate fares.length 0))
        (efficientIndices (ft fares demands cap).1) 0))
    rw [ht2]
    rfl
  · intro i hi
    rw [getD_fill_nan _ _ _ i (by omega)]
    rw [findIdx?_beq_none_of_lt_head
      (efficientIndices_pairwise (ft fares demands cap).1) hhead hi]

/-- Witness for C10: 3 classes, the first inefficient, so the smallest
efficient index is 1. -/
theorem EMSRb_MR_zero_at_first_efficient_witness :
    (efficientIndices ([F.nan, F.val 50, F.val 30] : List F)).head?
      = some 1 ∧
    (EMSRb_MR id id (fun _ _ _ => ([F.nan, F.val 50, F.val 30], [0, 5, 6]))
        [100, 50, 30] [10, 20, 30] none none).getD 1 F.nan = F.val 0 :=
  ⟨by decide,
    (EMSRb_MR_zero_at_first_efficient id id
      (fun _ _ _ => ([F.nan, F.val 50, F.val 30], [0, 5, 6]))
      [100, 50, 30] [10, 20, 30] none none 1 rfl (by decide)).1⟩

/-! ## Heap model for the frame claim

The Python functions receive references to caller-owned numpy arrays.
To state that they never write through those references, the two
optimizers are re-expressed as heap programs over an explicit store of
arrays: every in-place subscript assignment of the source becomes a
`Heap.write`, every array creation a `Heap.alloc`, and plain `name =`
rebindings touch no storage. -/

/-- A store of numpy arrays, addressed in allocation order. -/
structure Heap where
  cells : List (List F)

/-- Read the array stored at reference `r` (empty if unallocated). -/
def Heap.read (h : Heap) (r : ℕ) : List F := h.cells.getD r []

/-- Overwrite the array at reference `r` in place. -/
def Heap.write (h : Heap) (r : ℕ) (v : List F) : Heap := ⟨h.cells.set r v⟩

/-- Allocate a fresh array; returns the new heap and the new
reference. -/
def Heap.alloc (h : Heap) (v : List F) : Heap × ℕ :=
  (⟨h.cells ++ [v]⟩, h.cells.length)

/-- `EMSRb` as a heap program.  The only array the source ever writes
through a subscript is the freshly allocated `y`
(`y[j-1] = …` in the loop, then `y[y < 0] = 0` and
`y[np.isnan(y)] = 0`); the deterministic branch and the final
`np.hstack` build fresh arrays by name rebinding. -/
def EMSRbImp (ppf sqrtq : ℚ → ℚ) (h0 : Heap) (rf rd : ℕ)
    (rs : Option ℕ) : Heap × List F :=
  let fares := (h0.read rf).map F.toQ
  let demands := (h0.read rd).map F.toQ
  let sigmas := rs.map (fun r => (h0.read r).map F.toQ)
  let a := h0.alloc (List.replicate (fares.length - 1) (F.val 0))
  let h1 := a.1
  let ry := a.2
  if deterministicMode sigmas then
    (h1, F.val 0 :: ((cumsum demands).dropLast.map
      (fun q => roundF (F.val q))))
  else
    let s := sigmas.getD []
    let h2 := (List.range' 1 (fares.length - 1)).foldl
      (fun h j => h.write ry ((h.read ry).set (j - 1)
        (gaussStep ppf sqrtq fares demands s j))) h1
    let h3 := h2.write ry (clampNeg (h2.read ry))
    let h4 := h3.write ry (clampNan (h3.read ry))
    (h4, F.val 0 :: ((h4.read ry).map roundF))

/-- `EMSRb_MR` as a heap program: the gathered sub-vectors are fresh
allocations handed to the inner `EMSRb` call; nothing is ever written
through the caller's references. -/
def EMSRb_MRImp (ppf sqrtq : ℚ → ℚ)
    (ft : List ℚ → List ℚ → Option ℚ → List F × List ℚ)
    (h0 : Heap) (rf rd : ℕ) (rs : Option ℕ) (cap : Option ℚ) :
    Heap × List F :=
  let fares := (h0.read rf).map F.toQ
  let demands := (h0.read rd).map F.toQ
  let sig := (rs.map (fun r => (h0.read r).map F.toQ)).getD
    (List.replicate fares.length 0)
  let afad := ft fares demands cap
  let adjusted_fares := afad.1
  let adjusted_demand := afad.2
  let eff := efficientIndices adjusted_fares
  if (gather adjusted_fares eff F.nan).length ≠ 0 then
    let a1 := h0.alloc (gather adjusted_fares eff F.nan)
    let a2 := a1.1.alloc ((gather adjusted_demand eff 0).map F.val)
    let a3 := a2.1.alloc ((gather sig eff 0).map F.val)
    let res := EMSRbImp ppf sqrtq a3.1 a1.2 a2.2 (some a3.2)
    (res.1, fill_nan fares.length eff res.2)
  else
    (h0, List.replicate fares.length (F.val 0))

theorem Heap.read_write_ne (h : Heap) (r r' : ℕ) (v : List F)
    (hne : r' ≠ r) : (h.write r v).read r' = h.read r' := by
  unfold Heap.read Heap.write
  simp [List.getElem?_set_ne (fun he => hne he.symm)]

theorem Heap.read_alloc_lt (h : Heap) (v : List F) (r : ℕ)
    (hr : r < h.cells.length) : ((h.alloc v).1).read r = h.read r := by
  unfold Heap.read Heap.alloc
  exact List.getD_append _ _ _ _ hr

theorem Heap.read_alloc_self (h : Heap) (v : List F) :
    ((h.alloc v).1).read (h.alloc v).2 = v := by
  unfold Heap.read Heap.alloc
  rw [List.getD_eq_getElem?_getD, List.getElem?_append_right le_rfl]
  simp

/-- A fold of writes to one fixed reference leaves every other
reference unchanged. -/
theorem Heap.read_foldl_write (l : List ℕ) (ry : ℕ)
    (g : Heap → ℕ → List F) (h : Heap) (r : ℕ) (hne : r ≠ ry) :
    (l.foldl (fun h j => h.write ry (g h j)) h).read r = h.read r := by
  induction l generalizing h with
  | nil => rfl
  | cons j js ih =>
    simp only [List.foldl_cons]
    rw [ih]
    exact Heap.read_write_ne h ry r (g h j) hne

/-- Frame property of the `EMSRb` heap program: every array allocated
before the call — in particular the caller's `fares`, `demands` and
`sigmas` — is unchanged afterwards. -/
theorem EMSRbImp_frame (ppf sqrtq : ℚ → ℚ) (h0 : Heap) (rf rd : ℕ)
    (rs : Option ℕ) (r : ℕ) (hr : r < h0.cells.length) :
    (EMSRbImp ppf sqrtq h0 rf rd rs).1.read r = h0.read r := by
  unfold EMSRbImp
  dsimp only
  have hne : r ≠ h0.cells.length := by omega
  split
  · exact Heap.read_alloc_lt h0 _ r hr
  · exact (Heap.read_write_ne _ _ _ _ hne).trans
      ((Heap.read_write_ne _ _ _ _ hne).trans
        ((Heap.read_foldl_write _ _ _ _ _ hne).trans
          (Heap.read_alloc_lt h0 _ r hr)))

/-- C9: neither `EMSRb` nor `EMSRb_MR` mutates a caller-supplied
array: every reference allocated before the call (the caller's `fares`,
`demands` and `sigmas` among them) reads the same afterwards — all
in-place writes of the source target freshly allocated arrays. -/
theorem optimizers_never_mutate_inputs (ppf sqrtq : ℚ → ℚ)
    (ft : List ℚ → List ℚ → Option ℚ → List F × List ℚ)
    (h0 : Heap) (rf rd : ℕ) (rs : Option ℕ) (cap : Option ℚ)
    (r : ℕ) (hr : r < h0.cells.length) :
    (EMSRbImp ppf sqrtq h0 rf rd rs).1.read r = h0.read r ∧
    (EMSRb_MRImp ppf sqrtq ft h0 rf rd rs cap).1.read r = h0.read r := by
  refine ⟨EMSRbImp_frame ppf sqrtq h0 rf rd rs r hr, ?_⟩
  unfold EMSRb_MRImp
  dsimp only
  split
  · exact (EMSRbImp_frame _ _ _ _ _ _ r
        (by simp [Heap.alloc]; omega)).trans
      ((Heap.read_alloc_lt _ _ r (by simp [Heap.alloc]; omega)).trans
        ((Heap.read_alloc_lt _ _ r (by simp [Heap.alloc]; omega)).trans
          (Heap.read_alloc_lt h0 _ r hr)))
  · rfl

/-- Witness for C9 on a concrete two-cell heap. -/
theorem optimizers_never_mutate_inputs_witness :
    0 < (Heap.mk [[F.val 10], [F.val 5]]).cells.length ∧
    ((EMSRbImp id id (Heap.mk [[F.val 10], [F.val 5]]) 0 1 none).1.read 0
      = (Heap.mk [[F.val 10], [F.val 5]]).read 0 ∧
     (EMSRb_MRImp id id (fun f d _ => (f.map F.val, d))
        (Heap.mk [[F.val 10], [F.val 5]]) 0 1 none none).1.read 0
      = (Heap.mk [[F.val 10], [F.val 5]]).read 0) :=
  ⟨by decide,
    optimizers_never_mutate_inputs id id (fun f d _ => (f.map F.val, d))
      (Heap.mk [[F.val 10], [F.val 5]]) 0 1 none none 0 (by decide)⟩

theorem Heap.length_write (h : Heap) (r : ℕ) (v : List F) :
    (h.write r v).cells.length = h.cells.length := by
  simp [Heap.write]

theorem Heap.length_alloc (h : Heap) (v : List F) :
    ((h.alloc v).1).cells.length = h.cells.length + 1 := by
  simp [Heap.alloc]

theorem Heap.read_write_self (h : Heap) (r : ℕ) (v : List F)
    (hr : r < h.cells.length) : (h.write r v).read r = v := by
  unfold Heap.read Heap.write
  rw [List.getD_eq_getElem?_getD, List.getElem?_set_self (by simpa using hr)]
  rfl

/-- A fold of writes to one reference preserves the number of cells. -/
theorem Heap.length_foldl_write (l : List ℕ) (ry : ℕ)
    (g : Heap → ℕ → List F) (h : Heap) :
    ((l.foldl (fun h j => h.write ry (g h j)) h).cells.length)
      = h.cells.length := by
  induction l generalizing h with
  | nil => rfl
  | cons j js ih =>
    simp only [List.foldl_cons]
    rw [ih]
    exact Heap.length_write h ry (g h j)

/-- Contents of `y` after the first `m` iterations of the Gaussian
loop: the first `m` slots hold the loop values, the rest still hold the
initial zeros. -/
theorem gaussFold_read (ppf sqrtq : ℚ → ℚ) (fares demands s : List ℚ)
    (ry n : ℕ) : ∀ m : ℕ, m ≤ n → ∀ h : Heap, ry < h.cells.length →
    h.read ry = List.replicate n (F.val 0) →
    ((List.range' 1 m).foldl
      (fun h j => h.write ry ((h.read ry).set (j - 1)
        (gaussStep ppf sqrtq fares demands s j))) h).read ry
      = (List.range' 1 m).map (gaussStep ppf sqrtq fares demands s)
        ++ List.replicate (n - m) (F.val 0) := by
  intro m
  induction m with
  | zero =>
    intro _ h _ hinit
    simpa using hinit
  | succ m ih =>
    intro hm h hry hinit
    rw [List.range'_1_concat, List.foldl_append]
    simp only [List.foldl_cons, List.foldl_nil]
    have hHlen : ry < ((List.range' 1 m).foldl
        (fun h j => h.write ry ((h.read ry).set (j - 1)
          (gaussStep ppf sqrtq fares demands s j))) h).cells.length := by
      rw [Heap.length_foldl_write]
      exact hry
    rw [Heap.read_write_self _ _ _ hHlen]
    rw [ih (by omega) h hry hinit]
    have hsetpos : ((List.range' 1 m).map
        (gaussStep ppf sqrtq fares demands s)).length ≤ 1 + m - 1 := by
      simp
    rw [List.set_append_right _ _ hsetpos]
    have hm' : n - m = (n - (m + 1)) + 1 := by omega
    rw [hm', List.replicate_succ]
    have hidx : 1 + m - 1 - ((List.range' 1 m).map
        (gaussStep ppf sqrtq fares demands s)).length = 0 := by
      simp
    rw [hidx]
    simp [List.map_append]

/-- The heap program returns the same vector as the pure `EMSRb`
applied to the arrays its references point to — the imperative loop,
the clamping writes and the final stack compute the pure function. -/
theorem EMSRbImp_result (ppf sqrtq : ℚ → ℚ) (h0 : Heap) (rf rd : ℕ)
    (rs : Option ℕ) :
    (EMSRbImp ppf sqrtq h0 rf rd rs).2
      = EMSRb ppf sqrtq ((h0.read rf).map F.toQ) ((h0.read rd).map F.toQ)
          (rs.map (fun r => (h0.read r).map F.toQ)) := by
  unfold EMSRbImp EMSRb
  dsimp only
  split
  · rfl
  · have halloc : ∀ v : List F, (h0.alloc v).2 = h0.cells.length :=
      fun _ => rfl
    simp only [halloc]
    congr 2
    have hry : h0.cells.length
        < ((h0.alloc (List.replicate
            (((h0.read rf).map F.toQ).length - 1)
            (F.val 0))).1).cells.length := by
      rw [Heap.length_alloc]
      omega
    rw [Heap.read_write_self _ _ _
      (by rw [Heap.length_write, Heap.length_foldl_write]; exact hry)]
    rw [Heap.read_write_self _ _ _
      (by rw [Heap.length_foldl_write]; exact hry)]
    rw [gaussFold_read ppf sqrtq ((h0.read rf).map F.toQ)
      ((h0.read rd).map F.toQ)
      ((rs.map (fun r => (h0.read r).map F.toQ)).getD [])
      h0.cells.length (((h0.read rf).map F.toQ).length - 1)
      (((h0.read rf).map F.toQ).length - 1) le_rfl
      ((h0.alloc (List.replicate
        (((h0.read rf).map F.toQ).length - 1) (F.val 0))).1) hry
      (Heap.read_alloc_self h0 _)]
    simp [gaussLevels]

theorem Heap.read_alloc3_1 (h : Heap) (v1 v2 v3 : List F) :
    ((((h.alloc v1).1.alloc v2).1.alloc v3).1).read (h.alloc v1).2 = v1 := by
  have hb2 : (h.alloc v1).2 < ((h.alloc v1).1.alloc v2).1.cells.length := by
    show h.cells.length < _
    rw [Heap.length_alloc, Heap.length_alloc]
    omega
  have hb1 : (h.alloc v1).2 < (h.alloc v1).1.cells.length := by
    show h.cells.length < _
    rw [Heap.length_alloc]
    omega
  exact (Heap.read_alloc_lt _ v3 _ hb2).trans
    ((Heap.read_alloc_lt _ v2 _ hb1).trans (Heap.read_alloc_self h v1))

theorem Heap.read_alloc3_2 (h : Heap) (v1 v2 v3 : List F) :
    ((((h.alloc v1).1.alloc v2).1.alloc v3).1).read
      ((h.alloc v1).1.alloc v2).2 = v2 := by
  have hb : ((h.alloc v1).1.alloc v2).2
      < ((h.alloc v1).1.alloc v2).1.cells.length := by
    simp [Heap.alloc]
  exact (Heap.read_alloc_lt _ v3 _ hb).trans
    (Heap.read_alloc_self (h.alloc v1).1 v2)

theorem Heap.read_alloc3_3 (h : Heap) (v1 v2 v3 : List F) :
    ((((h.alloc v1).1.alloc v2).1.alloc v3).1).read
      (((h.alloc v1).1.alloc v2).1.alloc v3).2 = v3 :=
  Heap.read_alloc_self _ v3

theorem map_toQ_map_val (l : List ℚ) : (l.map F.val).map F.toQ = l := by
  induction l with
  | nil => rfl
  | cons x xs ih => simp [F.toQ, ih]

/-- The `EMSRb_MR` heap program returns the same vector as the pure
`EMSRb_MR` applied to the arrays its references point to. -/
theorem EMSRb_MRImp_result (ppf sqrtq : ℚ → ℚ)
    (ft : List ℚ → List ℚ → Option ℚ → List F × List ℚ)
    (h0 : Heap) (rf rd : ℕ) (rs : Option ℕ) (cap : Option ℚ) :
    (EMSRb_MRImp ppf sqrtq ft h0 rf rd rs cap).2
      = EMSRb_MR ppf sqrtq ft ((h0.read rf).map F.toQ)
          ((h0.read rd).map F.toQ)
          (rs.map (fun r => (h0.read r).map F.toQ)) cap := by
  unfold EMSRb_MRImp EMSRb_MR
  dsimp only
  split
  · rw [EMSRbImp_result]
    simp only [Option.map_some']
    rw [Heap.read_alloc3_1, Heap.read_alloc3_2, Heap.read_alloc3_3]
    rw [map_toQ_map_val, map_toQ_map_val]
  · rfl
